import Mathlib

/-!
Verification of the contribution attribution and aggregation engine of the
git_detective repository, against a shallow embedding of its Rust source.

The embedding mirrors, definition by definition:
  - src/stats.rs          : Stats, its Add / AddAssign impls, AddAssign of a line kind
  - src/project_stats.rs  : ProjectStats (nested author to language to Stats map),
                            its insert, its AddAssign merge, its From per-file builder
  - src/diff_stats.rs     : DiffStats and its AddAssign of aggregate diff totals
  - src/lib.rs            : per-file attribution, final_contributions, ls and file
                            exclusion, the diff_stats and files_contributed_to walks

HashMap and HashSet values are embedded as association lists and lists used as
sets; the first-match lookup discipline of the embedding coincides with hash
map semantics on well-formed (duplicate-free) maps, and all stated properties
are about lookup results and key presence, never about entry order.
-/

namespace GitDetect

/-- Line statistics of src/stats.rs: total, blank, comment and code line counts. -/
structure Stats where
  lines : Nat
  blanks : Nat
  comments : Nat
  code : Nat
deriving DecidableEq, Repr

/-- The Default derive of Stats: all four counters zero. -/
def Stats.deflt : Stats := ⟨0, 0, 0, 0⟩

/-- The AddAssign impl for Stats: component-wise addition of all four fields. -/
def Stats.addAssign (a b : Stats) : Stats :=
  { a with
    lines := a.lines + b.lines
    code := a.code + b.code
    comments := a.comments + b.comments
    blanks := a.blanks + b.blanks }

/-- The Add impl for Stats: component-wise addition of all four fields. -/
def Stats.add (a b : Stats) : Stats :=
  { lines := a.lines + b.lines
    code := a.code + b.code
    comments := a.comments + b.comments
    blanks := a.blanks + b.blanks }

/-- The line kinds of the external classifier (tokei LineType). -/
inductive LineType where
  | Blank
  | Code
  | Comment
deriving DecidableEq, Repr

/-- The AddAssign of a LineType into Stats: bump the matching counter, then
the total line counter. -/
def Stats.addLine (s : Stats) (lt : LineType) : Stats :=
  let s1 :=
    match lt with
    | .Blank => { s with blanks := s.blanks + 1 }
    | .Code => { s with code := s.code + 1 }
    | .Comment => { s with comments := s.comments + 1 }
  { s1 with lines := s1.lines + 1 }

/-- The Stats well-formedness invariant stated by the spec: the total equals
the sum of the three classified counters. -/
def Stats.Inv (s : Stats) : Prop := s.lines = s.code + s.comments + s.blanks

theorem Stats.add_eq_addAssign (a b : Stats) : Stats.add a b = Stats.addAssign a b := rfl

theorem Stats.deflt_addAssign (s : Stats) : Stats.addAssign Stats.deflt s = s := by
  cases s; simp [Stats.addAssign, Stats.deflt]

theorem Stats.addAssign_deflt (s : Stats) : Stats.addAssign s Stats.deflt = s := by
  cases s; simp [Stats.addAssign, Stats.deflt]

theorem Stats.addAssign_comm (a b : Stats) :
    Stats.addAssign a b = Stats.addAssign b a := by
  cases a; cases b; simp [Stats.addAssign]; omega

theorem Stats.addAssign_assoc (a b c : Stats) :
    Stats.addAssign (Stats.addAssign a b) c = Stats.addAssign a (Stats.addAssign b c) := by
  cases a; cases b; cases c; simp [Stats.addAssign]; omega

/-- C2: the Stats invariant lines = code + comments + blanks holds for the
zero value, is preserved by adding a classified line (which bumps lines by one
and exactly one of the three classified counters by one), and is preserved by
both Add and AddAssign of two invariant-satisfying values. -/
theorem stats_invariant_lines_eq_sum :
    Stats.Inv Stats.deflt ∧
    (∀ s : Stats,
      Stats.addLine s .Code =
        { s with lines := s.lines + 1, code := s.code + 1 } ∧
      Stats.addLine s .Comment =
        { s with lines := s.lines + 1, comments := s.comments + 1 } ∧
      Stats.addLine s .Blank =
        { s with lines := s.lines + 1, blanks := s.blanks + 1 }) ∧
    (∀ s lt, Stats.Inv s → Stats.Inv (Stats.addLine s lt)) ∧
    (∀ a b, Stats.Inv a → Stats.Inv b → Stats.Inv (Stats.add a b)) ∧
    (∀ a b, Stats.Inv a → Stats.Inv b → Stats.Inv (Stats.addAssign a b)) := by
  refine ⟨rfl, ?_, ?_, ?_, ?_⟩
  · intro s
    refine ⟨rfl, rfl, rfl⟩
  · intro s lt h
    cases lt <;> simp [Stats.addLine, Stats.Inv] at h ⊢ <;> omega
  · intro a b ha hb
    simp [Stats.add, Stats.Inv] at ha hb ⊢; omega
  · intro a b ha hb
    simp [Stats.addAssign, Stats.Inv] at ha hb ⊢; omega

/-- Witness for C2 at concrete values. -/
theorem stats_invariant_lines_eq_sum_witness :
    Stats.Inv (Stats.addLine (Stats.add ⟨3, 1, 1, 1⟩ ⟨2, 0, 1, 1⟩) .Code) :=
  (stats_invariant_lines_eq_sum.2.2.1 _ .Code
    (stats_invariant_lines_eq_sum.2.2.2.1 ⟨3, 1, 1, 1⟩ ⟨2, 0, 1, 1⟩ rfl rfl))

/-- First-match association list lookup, the embedding of HashMap get. -/
def lookupStr {α : Type} : List (String × α) → String → Option α
  | [], _ => none
  | (k, v) :: rest, key => if k = key then some v else lookupStr rest key

/-- Key list of an association list. -/
def keysOf {α : Type} (l : List (String × α)) : List String := l.map Prod.fst

/-- Per-language Stats map of one contributor, the inner HashMap of
ProjectStats. -/
abbrev LangMap := List (String × Stats)

/-- ProjectStats of src/project_stats.rs: contributor name to language to
Stats, embedded as a nested association list. -/
structure ProjectStats where
  stats : List (String × LangMap)
deriving DecidableEq, Repr

/-- The ProjectStats constructor new (also its Default derive): empty map. -/
def ProjectStats.new : ProjectStats := ⟨[]⟩

/-- Entry update of the inner language map, mirroring the Occupied arm of
ProjectStats insert: or-insert a default Stats for the language, then
add-assign the incoming Stats into it. -/
def insertLang : LangMap → String → Stats → LangMap
  | [], lang, s => [(lang, Stats.addAssign Stats.deflt s)]
  | (l, v) :: rest, lang, s =>
    if l = lang then (l, Stats.addAssign v s) :: rest
    else (l, v) :: insertLang rest lang s

/-- Entry update of the outer contributor map, mirroring ProjectStats insert:
an occupied contributor entry gets the language update, a vacant one gets a
fresh singleton language map. -/
def insertAuthor : List (String × LangMap) → String → String → Stats → List (String × LangMap)
  | [], name, lang, s => [(name, [(lang, s)])]
  | (n, inner) :: rest, name, lang, s =>
    if n = name then (n, insertLang inner lang s) :: rest
    else (n, inner) :: insertAuthor rest name lang s

/-- The crate-private ProjectStats insert of src/project_stats.rs. -/
def ProjectStats.insert (ps : ProjectStats) (name lang : String) (s : Stats) : ProjectStats :=
  ⟨insertAuthor ps.stats name lang s⟩

/-- The AddAssign impl for ProjectStats: re-insert every (author, language,
Stats) entry of the right operand into the left. -/
def ProjectStats.addAssign (a b : ProjectStats) : ProjectStats :=
  b.stats.foldl (fun acc p => p.2.foldl (fun acc2 q => ProjectStats.insert acc2 p.1 q.1 q.2) acc) a

/-- The From impl building a ProjectStats out of one file's
(language, author to Stats) attribution result. -/
def ProjectStats.ofFile (lang : String) (fileStats : List (String × Stats)) : ProjectStats :=
  fileStats.foldl (fun ps p => ProjectStats.insert ps p.1 lang p.2) ProjectStats.new

/-- Lookup of the Stats recorded for a (contributor, language) pair. -/
def ProjectStats.get (ps : ProjectStats) (name lang : String) : Option Stats :=
  (lookupStr ps.stats name).bind (fun inner => lookupStr inner lang)

/-- Contributor presence, the key set of the outer map. -/
def ProjectStats.hasContributor (ps : ProjectStats) (name : String) : Prop :=
  (lookupStr ps.stats name).isSome = true

/-- Well-formedness of the association list embedding: duplicate-free keys at
both levels (as in a HashMap) and no contributor with an empty language map
(ProjectStats never creates one). -/
def ProjectStats.WF (ps : ProjectStats) : Prop :=
  (keysOf ps.stats).Nodup ∧ ∀ p ∈ ps.stats, (keysOf p.2).Nodup ∧ p.2 ≠ []

/-- Merge of two optional Stats cells: union of presence, addition on
overlap. -/
def mergeOpt : Option Stats → Option Stats → Option Stats
  | none, b => b
  | some s, none => some s
  | some s, some t => some (Stats.addAssign s t)

theorem mergeOpt_none_right (a : Option Stats) : mergeOpt a none = a := by
  cases a <;> rfl

theorem mergeOpt_none_left (a : Option Stats) : mergeOpt none a = a := rfl

theorem mergeOpt_comm (a b : Option Stats) : mergeOpt a b = mergeOpt b a := by
  cases a <;> cases b <;> simp [mergeOpt, Stats.addAssign_comm]

theorem mergeOpt_assoc (a b c : Option Stats) :
    mergeOpt (mergeOpt a b) c = mergeOpt a (mergeOpt b c) := by
  cases a <;> cases b <;> cases c <;> simp [mergeOpt, Stats.addAssign_assoc]

theorem lookupStr_insertLang (inner : LangMap) (lang : String) (s : Stats) (l : String) :
    lookupStr (insertLang inner lang s) l =
      if l = lang then some (Stats.addAssign ((lookupStr inner lang).getD Stats.deflt) s)
      else lookupStr inner l := by
  induction inner with
  | nil =>
    by_cases h : l = lang
    · subst h; simp [insertLang, lookupStr]
    · have h2 : ¬ lang = l := fun hh => h hh.symm
      simp [insertLang, lookupStr, h, h2]
  | cons p rest ih =>
    obtain ⟨k, v⟩ := p
    by_cases hk : k = lang
    · subst hk
      by_cases hl : l = k
      · subst hl; simp [insertLang, lookupStr]
      · have hkl : ¬ k = l := fun hh => hl hh.symm
        simp [insertLang, lookupStr, hl, hkl]
    · by_cases hl : l = k
      · subst hl
        have hln : ¬ l = lang := hk
        simp [insertLang, lookupStr, hk, hln]
      · have hkl : ¬ k = l := fun hh => hl hh.symm
        simp [insertLang, lookupStr, hk, hkl, ih]

theorem mem_keysOf_insertLang (inner : LangMap) (lang : String) (s : Stats) (k : String) :
    k ∈ keysOf (insertLang inner lang s) ↔ k ∈ keysOf inner ∨ k = lang := by
  induction inner with
  | nil => simp [insertLang, keysOf]
  | cons p rest ih =>
    obtain ⟨l, v⟩ := p
    by_cases hl : l = lang
    · subst hl; simp [insertLang, keysOf]; tauto
    · simp only [insertLang, if_neg hl, keysOf, List.map_cons, List.mem_cons] at ih ⊢
      rw [ih]; tauto

theorem nodup_keysOf_insertLang (inner : LangMap) (lang : String) (s : Stats)
    (h : (keysOf inner).Nodup) : (keysOf (insertLang inner lang s)).Nodup := by
  induction inner with
  | nil => simp [insertLang, keysOf]
  | cons p rest ih =>
    obtain ⟨l, v⟩ := p
    simp only [keysOf, List.map_cons, List.nodup_cons] at h
    by_cases hl : l = lang
    · subst hl
      have he : insertLang ((l, v) :: rest) l s = (l, Stats.addAssign v s) :: rest := by
        simp [insertLang]
      rw [he]
      simpa [keysOf] using h
    · simp only [insertLang, if_neg hl, keysOf, List.map_cons, List.nodup_cons]
      refine ⟨?_, ih h.2⟩
      intro hmem
      have hmem2 : l ∈ keysOf (insertLang rest lang s) := hmem
      rw [mem_keysOf_insertLang] at hmem2
      rcases hmem2 with hmem2 | hmem2
      · exact h.1 hmem2
      · exact hl hmem2

theorem insertLang_ne_nil (inner : LangMap) (lang : String) (s : Stats) :
    insertLang inner lang s ≠ [] := by
  cases inner with
  | nil => simp [insertLang]
  | cons p rest =>
    obtain ⟨l, v⟩ := p
    simp only [insertLang]
    by_cases hl : l = lang <;> simp [hl]

theorem lookupStr_insertAuthor (st : List (String × LangMap)) (name lang : String)
    (s : Stats) (n : String) :
    lookupStr (insertAuthor st name lang s) n =
      if n = name then some (insertLang ((lookupStr st name).getD []) lang s)
      else lookupStr st n := by
  induction st with
  | nil =>
    by_cases h : n = name
    · subst h
      simp [insertAuthor, lookupStr, insertLang, Stats.deflt_addAssign]
    · have h2 : ¬ name = n := fun hh => h hh.symm
      simp [insertAuthor, lookupStr, h, h2]
  | cons p rest ih =>
    obtain ⟨k, inner⟩ := p
    by_cases hk : k = name
    · subst hk
      by_cases hn : n = k
      · subst hn; simp [insertAuthor, lookupStr]
      · have hkn : ¬ k = n := fun hh => hn hh.symm
        simp [insertAuthor, lookupStr, hn, hkn]
    · by_cases hn : n = k
      · subst hn
        have hnn : ¬ n = name := hk
        simp [insertAuthor, lookupStr, hk, hnn]
      · have hkn : ¬ k = n := fun hh => hn hh.symm
        simp [insertAuthor, lookupStr, hk, hkn, ih]

theorem mem_keysOf_insertAuthor (st : List (String × LangMap)) (name lang : String)
    (s : Stats) (k : String) :
    k ∈ keysOf (insertAuthor st name lang s) ↔ k ∈ keysOf st ∨ k = name := by
  induction st with
  | nil => simp [insertAuthor, keysOf]
  | cons p rest ih =>
    obtain ⟨n, inner⟩ := p
    by_cases hn : n = name
    · subst hn; simp [insertAuthor, keysOf]; tauto
    · simp only [insertAuthor, if_neg hn, keysOf, List.map_cons, List.mem_cons] at ih ⊢
      rw [ih]; tauto

theorem nodup_keysOf_insertAuthor (st : List (String × LangMap)) (name lang : String)
    (s : Stats) (h : (keysOf st).Nodup) : (keysOf (insertAuthor st name lang s)).Nodup := by
  induction st with
  | nil => simp [insertAuthor, keysOf]
  | cons p rest ih =>
    obtain ⟨n, inner⟩ := p
    simp only [keysOf, List.map_cons, List.nodup_cons] at h
    by_cases hn : n = name
    · subst hn
      have he : insertAuthor ((n, inner) :: rest) n lang s =
          (n, insertLang inner lang s) :: rest := by
        simp [insertAuthor]
      rw [he]
      simpa [keysOf] using h
    · simp only [insertAuthor, if_neg hn, keysOf, List.map_cons, List.nodup_cons]
      refine ⟨?_, ih h.2⟩
      intro hmem
      have hmem2 : n ∈ keysOf (insertAuthor rest name lang s) := hmem
      rw [mem_keysOf_insertAuthor] at hmem2
      rcases hmem2 with hmem2 | hmem2
      · exact h.1 hmem2
      · exact hn hmem2

theorem mem_insertAuthor (st : List (String × LangMap)) (name lang : String)
    (s : Stats) (p : String × LangMap) (hp : p ∈ insertAuthor st name lang s) :
    p ∈ st ∨ (∃ q ∈ st, p = (q.1, insertLang q.2 lang s)) ∨ p = (name, [(lang, s)]) := by
  induction st with
  | nil =>
    simp only [insertAuthor, List.mem_singleton] at hp
    exact Or.inr (Or.inr hp)
  | cons q rest ih =>
    obtain ⟨n, inner⟩ := q
    by_cases hn : n = name
    · subst hn
      have he : insertAuthor ((n, inner) :: rest) n lang s =
          (n, insertLang inner lang s) :: rest := by simp [insertAuthor]
      rw [he, List.mem_cons] at hp
      rcases hp with hp | hp
      · exact Or.inr (Or.inl ⟨(n, inner), List.mem_cons_self _ _, hp⟩)
      · exact Or.inl (List.mem_cons_of_mem _ hp)
    · simp only [insertAuthor, if_neg hn, List.mem_cons] at hp
      rcases hp with hp | hp
      · exact Or.inl (hp ▸ List.mem_cons_self _ _)
      · rcases ih hp with h | h | h
        · exact Or.inl (List.mem_cons_of_mem _ h)
        · obtain ⟨q, hq, hpq⟩ := h
          exact Or.inr (Or.inl ⟨q, List.mem_cons_of_mem _ hq, hpq⟩)
        · exact Or.inr (Or.inr h)

theorem WF_insert (ps : ProjectStats) (name lang : String) (s : Stats)
    (h : ps.WF) : (ps.insert name lang s).WF := by
  obtain ⟨hnodup, hinner⟩ := h
  constructor
  · exact nodup_keysOf_insertAuthor _ _ _ _ hnodup
  · intro p hp
    rcases mem_insertAuthor _ _ _ _ _ hp with hmem | hmem | hmem
    · exact hinner p hmem
    · obtain ⟨q, hq, hpq⟩ := hmem
      subst hpq
      exact ⟨nodup_keysOf_insertLang _ _ _ (hinner q hq).1, insertLang_ne_nil _ _ _⟩
    · subst hmem
      simp [keysOf]

theorem get_insert (ps : ProjectStats) (name lang : String) (s : Stats) (n l : String) :
    (ps.insert name lang s).get n l =
      if n = name ∧ l = lang then mergeOpt (ps.get name lang) (some s)
      else ps.get n l := by
  by_cases hn : n = name
  · subst hn
    by_cases hl : l = lang
    · subst hl
      simp only [ProjectStats.get, ProjectStats.insert, lookupStr_insertAuthor,
        eq_self_iff_true, and_self, if_true, Option.some_bind', lookupStr_insertLang]
      cases hcase : lookupStr ps.stats n with
      | none => simp [lookupStr, mergeOpt, Stats.deflt_addAssign]
      | some inner =>
        simp only [Option.getD_some, Option.some_bind']
        cases hcase2 : lookupStr inner l with
        | none => simp [mergeOpt, Stats.deflt_addAssign]
        | some v => simp [mergeOpt]
    · have hcond : ¬ (n = n ∧ l = lang) := fun hh => hl hh.2
      simp only [ProjectStats.get, ProjectStats.insert, lookupStr_insertAuthor,
        eq_self_iff_true, if_true, if_neg hcond, Option.some_bind',
        lookupStr_insertLang, if_neg hl]
      cases hcase : lookupStr ps.stats n with
      | none => simp [lookupStr, hl]
      | some inner => simp [hl]
  · have hcond : ¬ (n = name ∧ l = lang) := fun hh => hn hh.1
    simp only [ProjectStats.get, ProjectStats.insert, lookupStr_insertAuthor,
      if_neg hn, if_neg hcond]

theorem lookupStr_eq_none {α : Type} (l : List (String × α)) (k : String)
    (h : k ∉ keysOf l) : lookupStr l k = none := by
  induction l with
  | nil => rfl
  | cons p rest ih =>
    obtain ⟨k1, v⟩ := p
    simp only [keysOf, List.map_cons, List.mem_cons, not_or] at h
    simp only [lookupStr, if_neg (fun hh : k1 = k => h.1 hh.symm)]
    exact ih h.2

theorem lookupStr_mem {α : Type} (l : List (String × α)) (k : String) (v : α)
    (h : lookupStr l k = some v) : (k, v) ∈ l := by
  induction l with
  | nil => simp [lookupStr] at h
  | cons p rest ih =>
    obtain ⟨k1, v1⟩ := p
    by_cases hk : k1 = k
    · subst hk
      have h2 : some v1 = some v := by simpa [lookupStr] using h
      obtain rfl := Option.some.inj h2
      exact List.mem_cons_self _ _
    · simp only [lookupStr, if_neg hk] at h
      exact List.mem_cons_of_mem _ (ih h)

/-- The inner loop of the ProjectStats AddAssign impl: re-insert one
contributor's whole language map. -/
def insertMany (a : ProjectStats) (name : String) (inner : LangMap) : ProjectStats :=
  inner.foldl (fun acc2 q => ProjectStats.insert acc2 name q.1 q.2) a

theorem addAssign_eq_foldl (a b : ProjectStats) :
    ProjectStats.addAssign a b = b.stats.foldl (fun acc p => insertMany acc p.1 p.2) a := rfl

theorem get_insertMany (a : ProjectStats) (name : String) (inner : LangMap)
    (hnd : (keysOf inner).Nodup) (n l : String) :
    (insertMany a name inner).get n l =
      if n = name then mergeOpt (a.get n l) (lookupStr inner l) else a.get n l := by
  induction inner generalizing a with
  | nil =>
    by_cases hn : n = name <;> simp [insertMany, lookupStr, hn, mergeOpt_none_right]
  | cons q rest ih =>
    obtain ⟨l1, s1⟩ := q
    simp only [keysOf, List.map_cons, List.nodup_cons] at hnd
    have hstep : insertMany a name ((l1, s1) :: rest) =
        insertMany (a.insert name l1 s1) name rest := rfl
    rw [hstep, ih _ hnd.2]
    by_cases hn : n = name
    · subst hn
      simp only [if_pos rfl]
      rw [get_insert]
      by_cases hll : l = l1
      · subst hll
        have h0 : lookupStr rest l = none := lookupStr_eq_none _ _ hnd.1
        simp [h0, lookupStr, mergeOpt_none_right]
      · have hll2 : ¬ l1 = l := fun hh => hll hh.symm
        simp [lookupStr, hll, hll2]
    · simp only [if_neg hn]
      rw [get_insert]
      rw [if_neg (fun hh : n = name ∧ l = l1 => hn hh.1)]

theorem get_addAssignAux (a : ProjectStats) (st : List (String × LangMap))
    (hnd : (keysOf st).Nodup) (hbin : ∀ p ∈ st, (keysOf p.2).Nodup) (n l : String) :
    (ProjectStats.addAssign a ⟨st⟩).get n l =
      mergeOpt (a.get n l) ((lookupStr st n).bind (fun inner => lookupStr inner l)) := by
  induction st generalizing a with
  | nil => simp [ProjectStats.addAssign, lookupStr, mergeOpt_none_right]
  | cons p rest ih =>
    obtain ⟨name, inner⟩ := p
    simp only [keysOf, List.map_cons, List.nodup_cons] at hnd
    have hstep : ProjectStats.addAssign a ⟨(name, inner) :: rest⟩ =
        ProjectStats.addAssign (insertMany a name inner) ⟨rest⟩ := rfl
    rw [hstep, ih _ hnd.2 (fun q hq => hbin q (List.mem_cons_of_mem _ hq))]
    rw [get_insertMany _ _ _ (hbin (name, inner) (List.mem_cons_self _ _))]
    by_cases hn : n = name
    · subst hn
      have h0 : lookupStr rest n = none := lookupStr_eq_none _ _ hnd.1
      simp [h0, lookupStr, mergeOpt_none_right]
    · have hn2 : ¬ name = n := fun hh => hn hh.symm
      simp [lookupStr, hn, hn2]

theorem get_addAssign (a b : ProjectStats) (hb : b.WF) (n l : String) :
    (ProjectStats.addAssign a b).get n l = mergeOpt (a.get n l) (b.get n l) := by
  obtain ⟨st⟩ := b
  exact get_addAssignAux a st hb.1 (fun p hp => (hb.2 p hp).1) n l

theorem WF_insertMany (name : String) (inner : LangMap) :
    ∀ a : ProjectStats, a.WF → (insertMany a name inner).WF := by
  induction inner with
  | nil => exact fun a h => h
  | cons q rest ih => exact fun a h => ih _ (WF_insert _ _ _ _ h)

theorem WF_addAssignAux (st : List (String × LangMap)) :
    ∀ a : ProjectStats, a.WF →
      (st.foldl (fun acc p => insertMany acc p.1 p.2) a).WF := by
  induction st with
  | nil => exact fun a h => h
  | cons p rest ih => exact fun a h => ih _ (WF_insertMany _ _ _ h)

theorem WF_addAssign (a b : ProjectStats) (h : a.WF) :
    (ProjectStats.addAssign a b).WF := by
  rw [addAssign_eq_foldl]
  exact WF_addAssignAux _ _ h

theorem WF_new : ProjectStats.new.WF := by
  constructor
  · simp [ProjectStats.new, keysOf]
  · intro p hp; simp [ProjectStats.new] at hp

theorem WF_ofFileAux (lang : String) (fileStats : List (String × Stats)) :
    ∀ a : ProjectStats, a.WF →
      (fileStats.foldl (fun ps p => ProjectStats.insert ps p.1 lang p.2) a).WF := by
  induction fileStats with
  | nil => exact fun a h => h
  | cons q rest ih => exact fun a h => ih _ (WF_insert _ _ _ _ h)

theorem WF_ofFile (lang : String) (fileStats : List (String × Stats)) :
    (ProjectStats.ofFile lang fileStats).WF :=
  WF_ofFileAux lang fileStats ProjectStats.new WF_new

theorem hasContributor_iff_get (ps : ProjectStats) (h : ps.WF) (n : String) :
    ps.hasContributor n ↔ ∃ l, (ps.get n l).isSome = true := by
  constructor
  · intro hc
    rw [ProjectStats.hasContributor, Option.isSome_iff_exists] at hc
    obtain ⟨inner, hinner⟩ := hc
    have hmem := lookupStr_mem _ _ _ hinner
    have hne := (h.2 _ hmem).2
    cases hinner2 : inner with
    | nil => exact absurd hinner2 hne
    | cons q rest =>
      obtain ⟨l1, v1⟩ := q
      refine ⟨l1, ?_⟩
      simp [ProjectStats.get, hinner, hinner2, lookupStr]
  · intro ⟨l, hl⟩
    rw [ProjectStats.get] at hl
    rw [ProjectStats.hasContributor]
    cases hcase : lookupStr ps.stats n with
    | none => rw [hcase] at hl; simp at hl
    | some inner => simp

/-- A parallel reduction tree over per-file attribution results, as produced
by a work-stealing reduce: each leaf is one file's (language, author to Stats)
result, each node one application of the ProjectStats AddAssign merge. -/
inductive PSTree where
  | leaf (lang : String) (fileStats : List (String × Stats))
  | node (l r : PSTree)
deriving DecidableEq

/-- Evaluate a reduction tree with the ProjectStats AddAssign merge. -/
def PSTree.eval : PSTree → ProjectStats
  | .leaf lang fs => ProjectStats.ofFile lang fs
  | .node l r => ProjectStats.addAssign l.eval r.eval

/-- The per-file ProjectStats results at the leaves, left to right. -/
def PSTree.leafList : PSTree → List ProjectStats
  | .leaf lang fs => [ProjectStats.ofFile lang fs]
  | .node l r => l.leafList ++ r.leafList

theorem WF_eval (t : PSTree) : t.eval.WF := by
  induction t with
  | leaf lang fs => exact WF_ofFile lang fs
  | node tl tr ihl ihr => exact WF_addAssign _ _ ihl

theorem foldr_mergeOpt (L : List (Option Stats)) (init : Option Stats) :
    L.foldr mergeOpt init = mergeOpt (L.foldr mergeOpt none) init := by
  induction L with
  | nil => simp [mergeOpt_none_left]
  | cons x xs ih => simp only [List.foldr_cons, ih, mergeOpt_assoc]

theorem get_eval (t : PSTree) (n l : String) :
    t.eval.get n l = (t.leafList.map (fun p => p.get n l)).foldr mergeOpt none := by
  induction t with
  | leaf lang fs => simp [PSTree.eval, PSTree.leafList, mergeOpt_none_right]
  | node tl tr ihl ihr =>
    rw [show (PSTree.node tl tr).eval = ProjectStats.addAssign tl.eval tr.eval from rfl]
    rw [get_addAssign _ _ (WF_eval tr), ihl, ihr]
    rw [show (PSTree.node tl tr).leafList = tl.leafList ++ tr.leafList from rfl]
    rw [List.map_append, List.foldr_append]
    exact (foldr_mergeOpt _ _).symm

instance : Std.Commutative mergeOpt := ⟨mergeOpt_comm⟩

instance : Std.Associative mergeOpt := ⟨mergeOpt_assoc⟩

instance : LeftCommutative mergeOpt :=
  ⟨fun a b c => by rw [← mergeOpt_assoc, mergeOpt_comm a b, mergeOpt_assoc]⟩

theorem get_eval_perm (t₁ t₂ : PSTree) (hperm : List.Perm t₁.leafList t₂.leafList)
    (n l : String) : t₁.eval.get n l = t₂.eval.get n l := by
  rw [get_eval, get_eval]
  exact List.Perm.foldr_eq (f := mergeOpt) (hperm.map (fun p => p.get n l)) none

/-- C1: the ProjectStats merge (AddAssign, built on insert) is a commutative
monoid operation up to entry equality: a single merge takes the union of
contributors, for shared contributors the union of languages, and for shared
(contributor, language) pairs the Stats sum; ProjectStats default (new) is an
identity on both sides; and evaluating any two reduction trees whose leaf
multisets of per-file results agree yields identical entries, at every
(contributor, language) cell and in contributor presence. -/
theorem projectstats_merge_commutative_monoid (t₁ t₂ : PSTree)
    (hperm : List.Perm t₁.leafList t₂.leafList) :
    (∀ n l, t₁.eval.get n l = t₂.eval.get n l) ∧
    (∀ n, t₁.eval.hasContributor n ↔ t₂.eval.hasContributor n) ∧
    (∀ a b : ProjectStats, b.WF → ∀ n l,
      (ProjectStats.addAssign a b).get n l = mergeOpt (a.get n l) (b.get n l)) ∧
    (∀ b : ProjectStats, b.WF → ∀ n l,
      (ProjectStats.addAssign ProjectStats.new b).get n l = b.get n l) ∧
    (∀ a : ProjectStats, ProjectStats.addAssign a ProjectStats.new = a) := by
  refine ⟨get_eval_perm t₁ t₂ hperm, ?_, ?_, ?_, ?_⟩
  · intro n
    rw [hasContributor_iff_get _ (WF_eval t₁), hasContributor_iff_get _ (WF_eval t₂)]
    constructor
    · intro ⟨l, hl⟩; exact ⟨l, by rw [← get_eval_perm t₁ t₂ hperm]; exact hl⟩
    · intro ⟨l, hl⟩; exact ⟨l, by rw [get_eval_perm t₁ t₂ hperm]; exact hl⟩
  · exact fun a b hb n l => get_addAssign a b hb n l
  · intro b hb n l
    rw [get_addAssign _ _ hb]
    rw [show ProjectStats.new.get n l = none from rfl]
    exact mergeOpt_none_left _
  · intro a
    rfl

/-- Witness for C1: two two-leaf reduction trees merging the same per-file
results in opposite orders. -/
theorem projectstats_merge_commutative_monoid_witness :
    List.Perm
      (PSTree.node (PSTree.leaf "Rust" [("A", ⟨5, 0, 0, 5⟩)])
        (PSTree.leaf "Go" [("B", ⟨3, 1, 0, 2⟩)])).leafList
      (PSTree.node (PSTree.leaf "Go" [("B", ⟨3, 1, 0, 2⟩)])
        (PSTree.leaf "Rust" [("A", ⟨5, 0, 0, 5⟩)])).leafList ∧
    (∀ n l,
      (PSTree.node (PSTree.leaf "Rust" [("A", ⟨5, 0, 0, 5⟩)])
        (PSTree.leaf "Go" [("B", ⟨3, 1, 0, 2⟩)])).eval.get n l =
      (PSTree.node (PSTree.leaf "Go" [("B", ⟨3, 1, 0, 2⟩)])
        (PSTree.leaf "Rust" [("A", ⟨5, 0, 0, 5⟩)])).eval.get n l) := by
  have hperm : List.Perm
      (PSTree.node (PSTree.leaf "Rust" [("A", ⟨5, 0, 0, 5⟩)])
        (PSTree.leaf "Go" [("B", ⟨3, 1, 0, 2⟩)])).leafList
      (PSTree.node (PSTree.leaf "Go" [("B", ⟨3, 1, 0, 2⟩)])
        (PSTree.leaf "Rust" [("A", ⟨5, 0, 0, 5⟩)])).leafList := by
    simp only [PSTree.leafList, List.singleton_append]
    exact List.Perm.swap _ _ _
  exact ⟨hperm, (projectstats_merge_commutative_monoid _ _ hperm).1⟩

/-- The error enum of src/error.rs, reduced to the variants the attribution
engine produces: a git failure (abstract payload) or an I/O failure carrying
the offending path. -/
inductive Err where
  | gitError (code : Nat)
  | ioError (path : String)
deriving DecidableEq, Repr

/-- A blame hunk as consumed from git2: a final line range and the final
signature's optionally-decodable author name (None models a non-UTF-8 name). -/
structure Hunk where
  finalStartLine : Nat
  linesInHunk : Nat
  authorName : Option String
deriving DecidableEq, Repr

/-- The per-line classification of a file, as returned by the external
classifier: line number to line kind, absent for unclassified lines. -/
abbrev Ann := Nat → Option LineType

/-- The entry-or-default-then-add update of the per-file author map: one
classified line credited to one author. -/
def bumpAuthor : List (String × Stats) → String → LineType → List (String × Stats)
  | [], author, lt => [(author, Stats.addLine Stats.deflt lt)]
  | (a, s) :: rest, author, lt =>
    if a = author then (a, Stats.addLine s lt) :: rest
    else (a, s) :: bumpAuthor rest author lt

/-- The body of the per-line loop of the per-file attribution fold: look up
the line's classification, skip the line when absent. -/
def lineStep (ann : Ann) (author : String) (contribs : List (String × Stats))
    (lineNum : Nat) : List (String × Stats) :=
  match ann lineNum with
  | none => contribs
  | some lt => bumpAuthor contribs author lt

/-- One iteration of the blame-hunk fold of the per-file attribution: resolve
the hunk author's name, drop the whole hunk when it does not decode, otherwise
walk the hunk's final line range. -/
def processHunk (ann : Ann) (contribs : List (String × Stats)) (h : Hunk) :
    List (String × Stats) :=
  match h.authorName with
  | none => contribs
  | some author =>
    (List.range' h.finalStartLine h.linesInHunk).foldl (lineStep ann author) contribs

/-- The private per-file attribution of src/lib.rs: resolve the language
(external, already fallen back to Plain Text when undetermined), fail with an
IOError carrying the path when the classifier could not read the file, then
fold the blame hunks. -/
def finalContributionsFileCore (lang : String) (ann : Option Ann) (path : String)
    (hunks : List Hunk) : Except Err (String × List (String × Stats)) :=
  match ann with
  | none => .error (Err.ioError path)
  | some ann => .ok (lang, hunks.foldl (processHunk ann) [])

/-- Classification for the ten-line file of scenario A: lines 1 to 3 code,
line 4 comment, line 5 blank, lines 6 to 10 code. -/
def annScenarioA : Ann := fun n =>
  if 1 ≤ n ∧ n ≤ 3 then some .Code
  else if n = 4 then some .Comment
  else if n = 5 then some .Blank
  else if 6 ≤ n ∧ n ≤ 10 then some .Code
  else none

/-- C5: a ten-line file fully blamed to author A, classified as lines 1 to 3
code, line 4 comment, line 5 blank and lines 6 to 10 code, attributes to
exactly A the Stats with 10 lines, 8 code, 1 comment and 1 blank. -/
theorem per_file_attribution_scenario_a :
    finalContributionsFileCore "Plain Text" (some annScenarioA) "f.txt"
        [{ finalStartLine := 1, linesInHunk := 10, authorName := some "A" }] =
      .ok ("Plain Text",
        [("A", { lines := 10, blanks := 1, comments := 1, code := 8 })]) := by
  rfl

theorem lineRange_foldl_eq_filterMap (ann : Ann) (author : String) :
    ∀ (L : List Nat) (contribs : List (String × Stats)),
      L.foldl (lineStep ann author) contribs =
        (L.filterMap ann).foldl (fun c lt => bumpAuthor c author lt) contribs := by
  intro L
  induction L with
  | nil => intro contribs; rfl
  | cons n rest ih =>
    intro contribs
    cases hcase : ann n with
    | none =>
      simp only [List.foldl_cons, List.filterMap_cons, hcase, lineStep]
      exact ih contribs
    | some lt =>
      simp only [List.foldl_cons, List.filterMap_cons, hcase, lineStep]
      exact ih _

/-- C6: a blame hunk whose author name does not decode is dropped whole,
silently (no entry changes and no error); a line of a decodable hunk with no
classifier entry is skipped silently; and the remaining lines of the hunk are
still counted, the hunk's contribution being exactly the fold over its
classified lines. -/
theorem hunk_drop_and_line_skip :
    (∀ (ann : Ann) (contribs : List (String × Stats)) (h : Hunk),
      h.authorName = none → processHunk ann contribs h = contribs) ∧
    (∀ (ann : Ann) (author : String) (contribs : List (String × Stats)) (n : Nat),
      ann n = none → lineStep ann author contribs n = contribs) ∧
    (∀ (ann : Ann) (author : String) (contribs : List (String × Stats)) (h : Hunk),
      h.authorName = some author →
        processHunk ann contribs h =
          ((List.range' h.finalStartLine h.linesInHunk).filterMap ann).foldl
            (fun c lt => bumpAuthor c author lt) contribs) := by
  refine ⟨?_, ?_, ?_⟩
  · intro ann contribs h hnone
    rw [processHunk, hnone]
  · intro ann author contribs n hnone
    rw [lineStep, hnone]
  · intro ann author contribs h hsome
    rw [processHunk, hsome]
    exact lineRange_foldl_eq_filterMap ann author _ contribs

/-- Witness for C6: a dropped non-decodable hunk, a skipped unclassified
line, and the classified-lines characterization at a concrete hunk. -/
theorem hunk_drop_and_line_skip_witness :
    processHunk annScenarioA [("B", Stats.deflt)]
        { finalStartLine := 1, linesInHunk := 10, authorName := none } =
      [("B", Stats.deflt)] ∧
    lineStep annScenarioA "A" [] 11 = [] ∧
    processHunk annScenarioA []
        { finalStartLine := 1, linesInHunk := 10, authorName := some "A" } =
      ((List.range' 1 10).filterMap annScenarioA).foldl
        (fun c lt => bumpAuthor c "A" lt) [] :=
  ⟨hunk_drop_and_line_skip.1 annScenarioA [("B", Stats.deflt)] _ rfl,
   hunk_drop_and_line_skip.2.1 annScenarioA "A" [] 11 rfl,
   hunk_drop_and_line_skip.2.2 annScenarioA "A" [] _ rfl⟩

/-- The GitDetective handle of src/lib.rs, with its repository-backed
externals abstracted as oracles: the raw status listing (fallible), the
language resolver, the classifier and the blame call, plus the user's
exclusion set. -/
structure GitDetective where
  statuses : Except Err (List String)
  excludedFiles : List String
  langOf : String → Option String
  annotateFile : String → Option Ann
  blame : String → Except Err (List Hunk)

/-- The ls method: list file statuses, dropping every excluded path. -/
def GitDetective.ls (gd : GitDetective) : Except Err (List String) :=
  match gd.statuses with
  | .error e => .error e
  | .ok files => .ok (files.filter (fun p => !(gd.excludedFiles.contains p)))

/-- The exclude_file method: insert the path into the exclusion HashSet. -/
def GitDetective.excludeFile (gd : GitDetective) (file : String) : GitDetective :=
  { gd with
    excludedFiles :=
      if gd.excludedFiles.contains file then gd.excludedFiles
      else file :: gd.excludedFiles }

/-- Modelled from the spec: re-inclusion of a previously excluded file. The
source exposes no un-exclude API (exclude_file only ever inserts into the
exclusion set); the spec's re-inclusion is the removal of the path from that
set, the sole state exclude_file touches. -/
def GitDetective.includeFile (gd : GitDetective) (file : String) : GitDetective :=
  { gd with excludedFiles := gd.excludedFiles.erase file }

/-- The per-file closure of final_contributions: blame the file under the
repository lock, run per-file attribution, convert to a ProjectStats, and
yield none (dropping the file) on any blame or classifier-read failure. -/
def GitDetective.perFile (gd : GitDetective) (path : String) : Option ProjectStats :=
  match gd.blame path with
  | .error _ => none
  | .ok hunks =>
    match finalContributionsFileCore ((gd.langOf path).getD "Plain Text")
        (gd.annotateFile path) path hunks with
    | .error _ => none
    | .ok res => some (ProjectStats.ofFile res.1 res.2)

/-- The final_contributions method: list files (propagating a listing
failure), attribute each file best-effort, and reduce with the ProjectStats
merge from the default identity. -/
def GitDetective.finalContributions (gd : GitDetective) : Except Err ProjectStats :=
  match gd.ls with
  | .error e => .error e
  | .ok files =>
    .ok ((files.filterMap gd.perFile).foldl ProjectStats.addAssign ProjectStats.new)

theorem WF_perFile (gd : GitDetective) (path : String) (q : ProjectStats)
    (h : gd.perFile path = some q) : q.WF := by
  rw [GitDetective.perFile] at h
  split at h
  · simp at h
  · split at h
    · simp at h
    · simp only [Option.some_inj] at h
      subst h
      exact WF_ofFile _ _

theorem WF_foldl_addAssign (L : List ProjectStats) :
    ∀ a : ProjectStats, a.WF → (L.foldl ProjectStats.addAssign a).WF := by
  induction L with
  | nil => exact fun a h => h
  | cons p rest ih => exact fun a h => ih _ (WF_addAssign _ _ h)

theorem get_foldl_addAssign (L : List ProjectStats) (hL : ∀ p ∈ L, p.WF) :
    ∀ (a : ProjectStats) (n l : String),
      (L.foldl ProjectStats.addAssign a).get n l =
        mergeOpt (a.get n l) ((L.map (fun p => p.get n l)).foldr mergeOpt none) := by
  induction L with
  | nil => intro a n l; simp [mergeOpt_none_right]
  | cons p rest ih =>
    intro a n l
    have hp : p.WF := hL p (List.mem_cons_self _ _)
    have hrest : ∀ q ∈ rest, q.WF := fun q hq => hL q (List.mem_cons_of_mem _ hq)
    simp only [List.foldl_cons, List.map_cons, List.foldr_cons]
    rw [ih hrest, get_addAssign _ _ hp, mergeOpt_assoc]

theorem isSome_foldr_mergeOpt (L : List (Option Stats))
    (h : (L.foldr mergeOpt none).isSome = true) : ∃ x ∈ L, x.isSome = true := by
  induction L with
  | nil => simp [List.foldr_nil] at h
  | cons x xs ih =>
    simp only [List.foldr_cons] at h
    cases hx : x with
    | some v => exact ⟨some v, List.mem_cons_self _ _, rfl⟩
    | none =>
      rw [hx, mergeOpt_none_left] at h
      obtain ⟨y, hy, hys⟩ := ih h
      exact ⟨y, List.mem_cons_of_mem _ hy, hys⟩

theorem hasContributor_foldl (L : List ProjectStats) (hL : ∀ p ∈ L, p.WF) (n : String)
    (h : (L.foldl ProjectStats.addAssign ProjectStats.new).hasContributor n) :
    ∃ p ∈ L, p.hasContributor n := by
  rw [hasContributor_iff_get _ (WF_foldl_addAssign L ProjectStats.new WF_new)] at h
  obtain ⟨l, hl⟩ := h
  rw [get_foldl_addAssign L hL, show ProjectStats.new.get n l = none from rfl,
    mergeOpt_none_left] at hl
  obtain ⟨x, hx, hxs⟩ := isSome_foldr_mergeOpt _ hl
  rw [List.mem_map] at hx
  obtain ⟨p, hp, hpx⟩ := hx
  refine ⟨p, hp, ?_⟩
  rw [hasContributor_iff_get _ (hL p hp)]
  exact ⟨l, by rw [hpx]; exact hxs⟩

/-- C3: final_contributions is best-effort over files: whenever the listing
succeeds it returns Ok, the returned ProjectStats is exactly the merge of the
per-file results of the files whose blame and classifier read succeeded, and
every contributor present in the result is credited by at least one such
successful file (so a failing file's authors are absent unless another file
credits them, and no error is raised for a failing file). -/
theorem final_contributions_best_effort (gd : GitDetective) (files : List String)
    (hls : gd.ls = .ok files) :
    gd.finalContributions =
      .ok ((files.filterMap gd.perFile).foldl ProjectStats.addAssign ProjectStats.new) ∧
    (∀ ps, gd.finalContributions = .ok ps → ∀ n, ps.hasContributor n →
      ∃ f ∈ files, ∃ q, gd.perFile f = some q ∧ q.hasContributor n) := by
  constructor
  · rw [GitDetective.finalContributions, hls]
  · intro ps hps n hn
    rw [GitDetective.finalContributions, hls] at hps
    simp only [Except.ok.injEq] at hps
    subst hps
    have hWFs : ∀ p ∈ files.filterMap gd.perFile, p.WF := by
      intro p hp
      rw [List.mem_filterMap] at hp
      obtain ⟨f, _, hf⟩ := hp
      exact WF_perFile gd f p hf
    obtain ⟨p, hp, hpc⟩ := hasContributor_foldl _ hWFs n hn
    rw [List.mem_filterMap] at hp
    obtain ⟨f, hfmem, hf⟩ := hp
    exact ⟨f, hfmem, p, hf, hpc⟩

/-- A two-file detective for the best-effort witness: one healthy file and
one whose blame fails. -/
def gdScenarioC : GitDetective :=
  { statuses := .ok ["good.rs", "bad.bin"]
    excludedFiles := []
    langOf := fun _ => some "Rust"
    annotateFile := fun _ => some (fun n => if n = 1 then some .Code else none)
    blame := fun p =>
      if p = "good.rs" then .ok [{ finalStartLine := 1, linesInHunk := 1, authorName := some "A" }]
      else .error (Err.gitError 7) }

/-- Witness for C3: with one blamable file and one failing file the call
returns Ok and every contributor of the result comes from the good file. -/
theorem final_contributions_best_effort_witness :
    gdScenarioC.finalContributions =
      .ok (((["good.rs", "bad.bin"] : List String).filterMap gdScenarioC.perFile).foldl
        ProjectStats.addAssign ProjectStats.new) ∧
    (∀ ps, gdScenarioC.finalContributions = .ok ps → ∀ n, ps.hasContributor n →
      ∃ f ∈ (["good.rs", "bad.bin"] : List String), ∃ q,
        gdScenarioC.perFile f = some q ∧ q.hasContributor n) :=
  final_contributions_best_effort gdScenarioC ["good.rs", "bad.bin"] rfl

/-- C9: excluding a file removes it from the results of ls and from the file
set final_contributions attributes over, and re-including a previously
excluded file restores the exact pre-exclusion detective state, hence ls and
final_contributions results identical to those before the exclusion. -/
theorem exclude_file_roundtrip (gd : GitDetective) (p : String)
    (hp : gd.excludedFiles.contains p = false) :
    (∀ files, (gd.excludeFile p).ls = .ok files →
      p ∉ files ∧
      (gd.excludeFile p).finalContributions =
        .ok ((files.filterMap gd.perFile).foldl ProjectStats.addAssign ProjectStats.new)) ∧
    (gd.excludeFile p).includeFile p = gd ∧
    ((gd.excludeFile p).includeFile p).ls = gd.ls ∧
    ((gd.excludeFile p).includeFile p).finalContributions = gd.finalContributions := by
  have hmem : (gd.excludeFile p).excludedFiles.contains p = true := by
    rw [GitDetective.excludeFile]
    rw [hp]
    simp
  have hstate : (gd.excludeFile p).includeFile p = gd := by
    obtain ⟨st, ex, lo, an, bl⟩ := gd
    simp only [GitDetective.excludeFile, GitDetective.includeFile] at *
    simp only [hp, Bool.false_eq_true, if_false]
    congr 1
    exact List.erase_cons_head p ex
  refine ⟨?_, hstate, by rw [hstate], by rw [hstate]⟩
  intro files hls
  constructor
  · intro hcontra
    rw [GitDetective.ls] at hls
    cases hst : (gd.excludeFile p).statuses with
    | error e => rw [hst] at hls; simp at hls
    | ok fs =>
      rw [hst] at hls
      simp only [Except.ok.injEq] at hls
      subst hls
      rw [List.mem_filter] at hcontra
      rw [hmem] at hcontra
      simp at hcontra
  · rw [GitDetective.finalContributions, hls]
    rfl

/-- A concrete detective for the exclusion witness. -/
def gdExcl : GitDetective :=
  { statuses := .ok ["a.rs", "b.rs"]
    excludedFiles := []
    langOf := fun _ => some "Rust"
    annotateFile := fun _ => some (fun n => if n = 1 then some .Code else none)
    blame := fun _ =>
      .ok [{ finalStartLine := 1, linesInHunk := 1, authorName := some "A" }] }

/-- Witness for C9: excluding then re-including a file of a concrete
detective restores the original state and results. -/
theorem exclude_file_roundtrip_witness :
    (∀ files, (gdExcl.excludeFile "a.rs").ls = .ok files →
      "a.rs" ∉ files ∧
      (gdExcl.excludeFile "a.rs").finalContributions =
        .ok ((files.filterMap gdExcl.perFile).foldl ProjectStats.addAssign ProjectStats.new)) ∧
    (gdExcl.excludeFile "a.rs").includeFile "a.rs" = gdExcl ∧
    ((gdExcl.excludeFile "a.rs").includeFile "a.rs").ls = gdExcl.ls ∧
    ((gdExcl.excludeFile "a.rs").includeFile "a.rs").finalContributions =
      gdExcl.finalContributions :=
  exclude_file_roundtrip gdExcl "a.rs" rfl

/-- Git trees are abstracted by an identifier. -/
abbrev Tree := Nat

/-- The DiffStats value type of src/diff_stats.rs: per-author insertion and
deletion counts. -/
structure DiffStats where
  insertions : Nat
  deletions : Nat
deriving DecidableEq, Repr

/-- The Default derive of DiffStats. -/
def DiffStats.deflt : DiffStats := ⟨0, 0⟩

/-- The aggregate totals of one git2 diff, as read off by stats(). -/
structure DiffTotals where
  insertions : Nat
  deletions : Nat
deriving DecidableEq, Repr

/-- The AddAssign of git2 aggregate diff totals into a DiffStats:
component-wise addition. -/
def DiffStats.addAssign (d : DiffStats) (o : DiffTotals) : DiffStats :=
  { d with
    insertions := d.insertions + o.insertions
    deletions := d.deletions + o.deletions }

/-- One changed file of a diff; the new-side path may be absent. -/
structure Delta where
  newFilePath : Option String
deriving DecidableEq, Repr

/-- One git2 diff: fallible aggregate totals and the delta list. -/
structure Diff where
  statsResult : Except Err DiffTotals
  deltas : List Delta

/-- One commit as consumed by the historical walk: the optionally decodable
author name; the chained result of parent(0) and then the parent's tree
lookup, where the outer none is a failed or absent parent(0) and the inner
none a failed parent tree lookup, both swallowed by map_or; and the fallible
lookup of the commit's own tree. -/
structure CommitData where
  authorName : Option String
  parentTree : Option (Option Tree)
  tree : Except Err Tree

/-- The old_tree computed by the walk body: both parent failures collapse to
none (an empty old tree). -/
def CommitData.oldTree (c : CommitData) : Option Tree :=
  match c.parentTree with
  | none => none
  | some o => o

/-- The repository as seen by the historical walk: the commits the revwalk
plus find_commit filter yields in order, and the tree-to-tree diff oracle. -/
structure Repo where
  commits : List CommitData
  diffTT : Option Tree → Tree → Except Err Diff

/-- The entry-or-default-then-add update of the per-author DiffStats map. -/
def bumpDiff : List (String × DiffStats) → String → DiffTotals → List (String × DiffStats)
  | [], author, t => [(author, DiffStats.addAssign DiffStats.deflt t)]
  | (a, d) :: rest, author, t =>
    if a = author then (a, DiffStats.addAssign d t) :: rest
    else (a, d) :: bumpDiff rest author t

/-- One iteration of the diff_stats try_fold: look up the commit's own tree
and the diff (each aborting on failure), then, only when the author name
decodes, read the aggregate totals (aborting on failure) and add them to the
author's entry. -/
def stepDiffStats (repo : Repo) (contribs : List (String × DiffStats))
    (c : CommitData) : Except Err (List (String × DiffStats)) :=
  match c.tree with
  | .error e => .error e
  | .ok newTree =>
    match repo.diffTT c.oldTree newTree with
    | .error e => .error e
    | .ok diff =>
      match c.authorName with
      | some author =>
        match diff.statsResult with
        | .error e => .error e
        | .ok totals => .ok (bumpDiff contribs author totals)
      | none => .ok contribs

/-- The diff_stats method: try_fold the walk over an empty author map. -/
def Repo.diffStats (repo : Repo) : Except Err (List (String × DiffStats)) :=
  repo.commits.foldlM (stepDiffStats repo) []

/-- HashSet insert on a list used as a set. -/
def insertSet (s : List String) (x : String) : List String :=
  if x ∈ s then s else x :: s

/-- The set of new-side paths of a diff's deltas, as folded by
files_contributed_to. -/
def commitFiles (diff : Diff) : List String :=
  diff.deltas.foldl
    (fun files d =>
      match d.newFilePath with
      | some p => insertSet files p
      | none => files) []

/-- The union of the commit's file set with the author's previous set, as
assigned back into the author's entry. -/
def setUnion (files prev : List String) : List String :=
  files.foldl insertSet prev

/-- The entry-or-default-then-union update of the per-author touched-file
map. -/
def bumpFiles : List (String × List String) → String → List String → List (String × List String)
  | [], author, fs => [(author, setUnion fs [])]
  | (a, s) :: rest, author, fs =>
    if a = author then (a, setUnion fs s) :: rest
    else (a, s) :: bumpFiles rest author fs

/-- One iteration of the files_contributed_to try_fold: tree and diff as in
diff_stats, then, only when the author name decodes, union the commit's
new-side paths into the author's set. -/
def stepFiles (repo : Repo) (contribs : List (String × List String))
    (c : CommitData) : Except Err (List (String × List String)) :=
  match c.tree with
  | .error e => .error e
  | .ok newTree =>
    match repo.diffTT c.oldTree newTree with
    | .error e => .error e
    | .ok diff =>
      match c.authorName with
      | some author => .ok (bumpFiles contribs author (commitFiles diff))
      | none => .ok contribs

/-- The files_contributed_to method: try_fold the walk over an empty map. -/
def Repo.filesContributedTo (repo : Repo) : Except Err (List (String × List String)) :=
  repo.commits.foldlM (stepFiles repo) []

theorem foldlM_except_cons {σ α : Type} (g : σ → α → Except Err σ) (b : σ)
    (x : α) (L : List α) :
    List.foldlM g b (x :: L) =
      match g b x with
      | .error e => .error e
      | .ok b2 => List.foldlM g b2 L := by
  rw [List.foldlM_cons]
  cases h : g b x <;> rfl

theorem foldlM_abort {σ : Type} (g : σ → CommitData → Except Err σ)
    (pre post : List CommitData) (c : CommitData) (init acc : σ) (e : Err)
    (hacc : List.foldlM g init pre = .ok acc) (hstep : g acc c = .error e) :
    List.foldlM g init (pre ++ c :: post) = .error e := by
  rw [List.foldlM_append, hacc]
  show List.foldlM g acc (c :: post) = Except.error e
  rw [foldlM_except_cons, hstep]

theorem foldlM_skip {σ : Type} (g : σ → CommitData → Except Err σ)
    (pre post : List CommitData) (c : CommitData) (init : σ)
    (hstep : ∀ acc, g acc c = .ok acc) :
    List.foldlM g init (pre ++ c :: post) = List.foldlM g init (pre ++ post) := by
  rw [List.foldlM_append, List.foldlM_append]
  cases hpre : List.foldlM g init pre with
  | error e => rfl
  | ok acc =>
    show List.foldlM g acc (c :: post) = List.foldlM g acc post
    rw [foldlM_except_cons, hstep acc]

/-- C4 (amended): the historical walk of diff_stats and files_contributed_to
is strict in the commit's own tree lookup, the diff computation and (for
diff_stats, on commits with a decodable author) the diff totals: the first
such failure aborts the whole walk and is returned unchanged, with no partial
map. A failed parent(0) or parent tree lookup does not abort; it is collapsed
to an absent old tree by map_or. -/
theorem historical_walk_strict (repo : Repo) (pre post : List CommitData)
    (c : CommitData) (hcommits : repo.commits = pre ++ c :: post) :
    (∀ acc, List.foldlM (stepDiffStats repo) [] pre = .ok acc →
      (∀ e, c.tree = .error e → repo.diffStats = .error e) ∧
      (∀ t e, c.tree = .ok t → repo.diffTT c.oldTree t = .error e →
        repo.diffStats = .error e) ∧
      (∀ t d a e, c.tree = .ok t → repo.diffTT c.oldTree t = .ok d →
        c.authorName = some a → d.statsResult = .error e →
        repo.diffStats = .error e)) ∧
    (∀ acc, List.foldlM (stepFiles repo) [] pre = .ok acc →
      (∀ e, c.tree = .error e → repo.filesContributedTo = .error e) ∧
      (∀ t e, c.tree = .ok t → repo.diffTT c.oldTree t = .error e →
        repo.filesContributedTo = .error e)) := by
  constructor
  · intro acc hacc
    refine ⟨?_, ?_, ?_⟩
    · intro e htree
      rw [Repo.diffStats, hcommits]
      exact foldlM_abort _ _ _ _ _ _ _ hacc (by simp [stepDiffStats, htree])
    · intro t e htree hdiff
      rw [Repo.diffStats, hcommits]
      exact foldlM_abort _ _ _ _ _ _ _ hacc (by simp [stepDiffStats, htree, hdiff])
    · intro t d a e htree hdiff hauthor hstats
      rw [Repo.diffStats, hcommits]
      exact foldlM_abort _ _ _ _ _ _ _ hacc
        (by simp [stepDiffStats, htree, hdiff, hauthor, hstats])
  · intro acc hacc
    constructor
    · intro e htree
      rw [Repo.filesContributedTo, hcommits]
      exact foldlM_abort _ _ _ _ _ _ _ hacc (by simp [stepFiles, htree])
    · intro t e htree hdiff
      rw [Repo.filesContributedTo, hcommits]
      exact foldlM_abort _ _ _ _ _ _ _ hacc (by simp [stepFiles, htree, hdiff])

/-- A one-commit repository whose only commit has a parent whose tree lookup
failed (parentTree is some none) while everything else succeeds. -/
def repoParentFail : Repo :=
  { commits := [{ authorName := some "Alice", parentTree := some none, tree := .ok 1 }]
    diffTT := fun _ _ =>
      .ok { statsResult := .ok ⟨2, 1⟩, deltas := [{ newFilePath := some "a.rs" }] } }

/-- Counterexample to C4 as stated: a commit reachable from HEAD whose parent
tree lookup fails does not abort the walk; both diff_stats and
files_contributed_to return Ok maps, the failed lookup having been collapsed
to an empty old tree. -/
theorem historical_walk_strict_counterexample :
    (∃ c ∈ repoParentFail.commits, c.parentTree = some none) ∧
    repoParentFail.diffStats = .ok [("Alice", { insertions := 2, deletions := 1 })] ∧
    repoParentFail.filesContributedTo = .ok [("Alice", ["a.rs"])] :=
  ⟨⟨_, List.mem_cons_self _ _, rfl⟩, rfl, rfl⟩

/-- Witness for C4 (amended): a two-commit repository where the second
commit's own tree lookup fails aborts both walks with that failure. -/
def repoTreeFail : Repo :=
  { commits :=
      [{ authorName := some "Alice", parentTree := none, tree := .ok 1 },
       { authorName := some "Bob", parentTree := some (some 1), tree := .error (Err.gitError 3) }]
    diffTT := fun _ _ => .ok { statsResult := .ok ⟨1, 0⟩, deltas := [] } }

theorem historical_walk_strict_witness :
    repoTreeFail.diffStats = .error (Err.gitError 3) ∧
    repoTreeFail.filesContributedTo = .error (Err.gitError 3) := by
  have h := historical_walk_strict repoTreeFail
    [{ authorName := some "Alice", parentTree := none, tree := .ok 1 }] []
    { authorName := some "Bob", parentTree := some (some 1), tree := .error (Err.gitError 3) }
    rfl
  exact ⟨((h.1 [("Alice", ⟨1, 0⟩)] rfl).1 (Err.gitError 3) rfl),
         ((h.2 [("Alice", [])] rfl).1 (Err.gitError 3) rfl)⟩

/-- C10: a commit whose author name does not decode as UTF-8 (while its own
tree and diff succeed) is silently skipped by both historical walks: the
results equal those of the same walk without that commit, so it contributes
no insertions or deletions and no file paths, and it neither aborts the walk
nor produces an error. -/
theorem nonutf8_author_commit_skipped (repo : Repo) (pre post : List CommitData)
    (c : CommitData) (t : Tree) (d : Diff)
    (hauthor : c.authorName = none) (htree : c.tree = .ok t)
    (hdiff : repo.diffTT c.oldTree t = .ok d) :
    Repo.diffStats { repo with commits := pre ++ c :: post } =
      Repo.diffStats { repo with commits := pre ++ post } ∧
    Repo.filesContributedTo { repo with commits := pre ++ c :: post } =
      Repo.filesContributedTo { repo with commits := pre ++ post } := by
  constructor
  · show List.foldlM (stepDiffStats repo) [] (pre ++ c :: post) =
      List.foldlM (stepDiffStats repo) [] (pre ++ post)
    exact foldlM_skip _ _ _ _ _
      (fun acc => by simp [stepDiffStats, htree, hdiff, hauthor])
  · show List.foldlM (stepFiles repo) [] (pre ++ c :: post) =
      List.foldlM (stepFiles repo) [] (pre ++ post)
    exact foldlM_skip _ _ _ _ _
      (fun acc => by simp [stepFiles, htree, hdiff, hauthor])

/-- A repository with a decodable-author commit surrounded by one commit with
a non-decodable author name. -/
def repoNoName : Repo :=
  { commits :=
      [{ authorName := some "Alice", parentTree := none, tree := .ok 1 },
       { authorName := none, parentTree := some (some 1), tree := .ok 2 }]
    diffTT := fun _ t =>
      .ok { statsResult := .ok (if t = 1 then ⟨4, 0⟩ else ⟨9, 9⟩)
            deltas := [{ newFilePath := some "x.rs" }] } }

/-- Witness for C10 at a concrete repository: dropping the non-decodable
commit leaves both walk results unchanged. -/
theorem nonutf8_author_commit_skipped_witness :
    Repo.diffStats { repoNoName with commits :=
        [{ authorName := some "Alice", parentTree := none, tree := .ok 1 },
         { authorName := none, parentTree := some (some 1), tree := .ok 2 }] } =
      Repo.diffStats { repoNoName with commits :=
        [{ authorName := some "Alice", parentTree := none, tree := .ok 1 }] } ∧
    Repo.filesContributedTo { repoNoName with commits :=
        [{ authorName := some "Alice", parentTree := none, tree := .ok 1 },
         { authorName := none, parentTree := some (some 1), tree := .ok 2 }] } =
      Repo.filesContributedTo { repoNoName with commits :=
        [{ authorName := some "Alice", parentTree := none, tree := .ok 1 }] } :=
  nonutf8_author_commit_skipped repoNoName
    [{ authorName := some "Alice", parentTree := none, tree := .ok 1 }] []
    { authorName := none, parentTree := some (some 1), tree := .ok 2 }
    2 { statsResult := .ok ⟨9, 9⟩, deltas := [{ newFilePath := some "x.rs" }] }
    rfl rfl rfl

theorem lookupStr_bumpDiff (contribs : List (String × DiffStats)) (author : String)
    (t : DiffTotals) (a2 : String) :
    lookupStr (bumpDiff contribs author t) a2 =
      if a2 = author then
        some (DiffStats.addAssign ((lookupStr contribs author).getD DiffStats.deflt) t)
      else lookupStr contribs a2 := by
  induction contribs with
  | nil =>
    by_cases h : a2 = author
    · subst h; simp [bumpDiff, lookupStr]
    · have h2 : ¬ author = a2 := fun hh => h hh.symm
      simp [bumpDiff, lookupStr, h, h2]
  | cons p rest ih =>
    obtain ⟨k, v⟩ := p
    by_cases hk : k = author
    · subst hk
      by_cases ha : a2 = k
      · subst ha; simp [bumpDiff, lookupStr]
      · have hka : ¬ k = a2 := fun hh => ha hh.symm
        simp [bumpDiff, lookupStr, ha, hka]
    · by_cases ha : a2 = k
      · subst ha
        have han : ¬ a2 = author := hk
        simp [bumpDiff, lookupStr, hk, han]
      · have hka : ¬ k = a2 := fun hh => ha hh.symm
        simp [bumpDiff, lookupStr, hk, hka, ih]

/-- The three-commit history of scenario D: Alice adds 10, Bob adds 5 and
removes 3, Alice removes 2; the diff oracle keys the totals on the commit's
own tree. -/
def repoScenarioD : Repo :=
  { commits :=
      [{ authorName := some "Alice", parentTree := none, tree := .ok 1 },
       { authorName := some "Bob", parentTree := some (some 1), tree := .ok 2 },
       { authorName := some "Alice", parentTree := some (some 2), tree := .ok 3 }]
    diffTT := fun _ t =>
      .ok { statsResult := .ok (if t = 1 then ⟨10, 0⟩ else if t = 2 then ⟨5, 3⟩ else ⟨0, 2⟩)
            deltas := [] } }

/-- C7: diff_stats adds each commit's aggregate insertion and deletion totals
component-wise into the commit author's running DiffStats entry, and on the
scenario D history (Alice plus 10 minus 0, Bob plus 5 minus 3, Alice plus 0
minus 2) the result maps exactly Alice to plus 10 minus 2 and Bob to plus 5
minus 3. -/
theorem diff_stats_componentwise_attribution :
    (∀ (contribs : List (String × DiffStats)) (author : String) (t : DiffTotals)
        (a2 : String),
      lookupStr (bumpDiff contribs author t) a2 =
        if a2 = author then
          some (DiffStats.addAssign ((lookupStr contribs author).getD DiffStats.deflt) t)
        else lookupStr contribs a2) ∧
    (∃ m, repoScenarioD.diffStats = .ok m ∧
      lookupStr m "Alice" = some { insertions := 10, deletions := 2 } ∧
      lookupStr m "Bob" = some { insertions := 5, deletions := 3 } ∧
      keysOf m = ["Alice", "Bob"]) := by
  refine ⟨lookupStr_bumpDiff, ⟨[("Alice", ⟨10, 2⟩), ("Bob", ⟨5, 3⟩)], rfl, rfl, rfl, rfl⟩⟩

theorem mem_insertSet (s : List String) (x y : String) :
    y ∈ insertSet s x ↔ y ∈ s ∨ y = x := by
  rw [insertSet]
  split_ifs with h
  · constructor
    · exact Or.inl
    · intro h2
      rcases h2 with h2 | h2
      · exact h2
      · subst h2; exact h
  · simp [List.mem_cons, or_comm]

theorem nodup_insertSet (s : List String) (x : String) (h : s.Nodup) :
    (insertSet s x).Nodup := by
  rw [insertSet]
  split_ifs with hx
  · exact h
  · exact List.nodup_cons.mpr ⟨hx, h⟩

theorem mem_setUnion (fs : List String) :
    ∀ (prev : List String) (y : String), y ∈ setUnion fs prev ↔ y ∈ fs ∨ y ∈ prev := by
  induction fs with
  | nil => intro prev y; simp [setUnion]
  | cons f fs ih =>
    intro prev y
    have hstep : setUnion (f :: fs) prev = setUnion fs (insertSet prev f) := rfl
    rw [hstep, ih, mem_insertSet, List.mem_cons]
    tauto

theorem nodup_setUnion (fs : List String) :
    ∀ prev : List String, prev.Nodup → (setUnion fs prev).Nodup := by
  induction fs with
  | nil => exact fun prev h => h
  | cons f fs ih => exact fun prev h => ih _ (nodup_insertSet _ _ h)

theorem lookupStr_bumpFiles (contribs : List (String × List String)) (author : String)
    (fs : List String) (a2 : String) :
    lookupStr (bumpFiles contribs author fs) a2 =
      if a2 = author then some (setUnion fs ((lookupStr contribs author).getD []))
      else lookupStr contribs a2 := by
  induction contribs with
  | nil =>
    by_cases h : a2 = author
    · subst h; simp [bumpFiles, lookupStr]
    · have h2 : ¬ author = a2 := fun hh => h hh.symm
      simp [bumpFiles, lookupStr, h, h2]
  | cons p rest ih =>
    obtain ⟨k, v⟩ := p
    by_cases hk : k = author
    · subst hk
      by_cases ha : a2 = k
      · subst ha; simp [bumpFiles, lookupStr]
      · have hka : ¬ k = a2 := fun hh => ha hh.symm
        simp [bumpFiles, lookupStr, ha, hka]
    · by_cases ha : a2 = k
      · subst ha
        have han : ¬ a2 = author := hk
        simp [bumpFiles, lookupStr, hk, han]
      · have hka : ¬ k = a2 := fun hh => ha hh.symm
        simp [bumpFiles, lookupStr, hk, hka, ih]

theorem nodup_bumpFiles (contribs : List (String × List String)) (author : String)
    (fs : List String) (h : ∀ q ∈ contribs, q.2.Nodup) :
    ∀ q ∈ bumpFiles contribs author fs, q.2.Nodup := by
  induction contribs with
  | nil =>
    intro q hq
    simp only [bumpFiles, List.mem_singleton] at hq
    subst hq
    exact nodup_setUnion _ _ List.nodup_nil
  | cons p rest ih =>
    obtain ⟨k, v⟩ := p
    intro q hq
    by_cases hk : k = author
    · subst hk
      have he : bumpFiles ((k, v) :: rest) k fs = (k, setUnion fs v) :: rest := by
        simp [bumpFiles]
      rw [he, List.mem_cons] at hq
      rcases hq with hq | hq
      · subst hq
        exact nodup_setUnion _ _ (h (k, v) (List.mem_cons_self _ _))
      · exact h q (List.mem_cons_of_mem _ hq)
    · simp only [bumpFiles, if_neg hk, List.mem_cons] at hq
      rcases hq with hq | hq
      · subst hq
        exact h (k, v) (List.mem_cons_self _ _)
      · exact ih (fun r hr => h r (List.mem_cons_of_mem _ hr)) q hq

/-- The author a touched the file path p in some commit of the walk whose
tree and diff both resolve. -/
def Repo.Touched (repo : Repo) (a p : String) : Prop :=
  ∃ c ∈ repo.commits, c.authorName = some a ∧
    ∃ t d, c.tree = .ok t ∧ repo.diffTT c.oldTree t = .ok d ∧ p ∈ commitFiles d

theorem filesWalk_props (repo : Repo) (L : List CommitData) :
    ∀ (init m : List (String × List String)),
      List.foldlM (stepFiles repo) init L = .ok m →
      (∀ q ∈ init, q.2.Nodup) →
      ((∀ q ∈ m, q.2.Nodup) ∧
       (∀ a p s, lookupStr init a = some s → p ∈ s →
          ∃ s2, lookupStr m a = some s2 ∧ p ∈ s2) ∧
       (∀ a p, (∃ c ∈ L, c.authorName = some a ∧ ∃ t d, c.tree = .ok t ∧
            repo.diffTT c.oldTree t = .ok d ∧ p ∈ commitFiles d) →
          ∃ s2, lookupStr m a = some s2 ∧ p ∈ s2)) := by
  induction L with
  | nil =>
    intro init m h hinit
    have h2 : Except.ok (ε := Err) init = .ok m := h
    injection h2 with h2
    subst h2
    refine ⟨hinit, fun a p s hs hp => ⟨s, hs, hp⟩, ?_⟩
    rintro a p ⟨c, hc, -⟩
    simp at hc
  | cons c L ih =>
    intro init m h hinit
    rw [foldlM_except_cons] at h
    cases hstep : stepFiles repo init c with
    | error e => rw [hstep] at h; exact absurd h (by simp)
    | ok m1 =>
      rw [hstep] at h
      have hrest : List.foldlM (stepFiles repo) m1 L = .ok m := h
      cases htree : c.tree with
      | error e =>
        simp [stepFiles, htree] at hstep
      | ok t =>
        cases hdiff : repo.diffTT c.oldTree t with
        | error e =>
          simp [stepFiles, htree, hdiff] at hstep
        | ok d =>
          cases hauth : c.authorName with
          | none =>
            simp only [stepFiles, htree, hdiff, hauth, Except.ok.injEq] at hstep
            have hm1 : init = m1 := hstep
            subst hm1
            obtain ⟨h1, h2, h3⟩ := ih init m hrest hinit
            refine ⟨h1, h2, ?_⟩
            rintro a p ⟨c2, hc2, ha2, hrest2⟩
            rw [List.mem_cons] at hc2
            rcases hc2 with hc2 | hc2
            · subst hc2
              rw [hauth] at ha2
              exact absurd ha2 (by simp)
            · exact h3 a p ⟨c2, hc2, ha2, hrest2⟩
          | some au =>
            simp only [stepFiles, htree, hdiff, hauth, Except.ok.injEq] at hstep
            have hm1 : bumpFiles init au (commitFiles d) = m1 := hstep
            subst hm1
            have hinit1 : ∀ q ∈ bumpFiles init au (commitFiles d), q.2.Nodup :=
              nodup_bumpFiles init au (commitFiles d) hinit
            obtain ⟨h1, h2, h3⟩ := ih _ m hrest hinit1
            refine ⟨h1, ?_, ?_⟩
            · intro a p s hs hp
              by_cases ha : a = au
              · subst ha
                refine h2 a p (setUnion (commitFiles d) s) ?_ ?_
                · rw [lookupStr_bumpFiles, if_pos rfl, hs, Option.getD_some]
                · rw [mem_setUnion]; exact Or.inr hp
              · refine h2 a p s ?_ hp
                rw [lookupStr_bumpFiles, if_neg ha]
                exact hs
            · rintro a p ⟨c2, hc2, ha2, t2, d2, ht2, hd2, hp2⟩
              rw [List.mem_cons] at hc2
              rcases hc2 with hc2 | hc2
              · subst hc2
                rw [hauth] at ha2
                have hau : au = a := by injection ha2
                subst hau
                rw [htree] at ht2
                have ht3 : t = t2 := by injection ht2
                subst ht3
                rw [hdiff] at hd2
                have hd3 : d = d2 := by injection hd2
                subst hd3
                refine h2 au p (setUnion (commitFiles d) ((lookupStr init au).getD [])) ?_ ?_
                · rw [lookupStr_bumpFiles, if_pos rfl]
                · rw [mem_setUnion]; exact Or.inl hp2
              · exact h3 a p ⟨c2, hc2, ha2, t2, d2, ht2, hd2, hp2⟩

/-- C8: files_contributed_to accumulates per-author touched files by set
union: every returned set is duplicate-free, and whenever an author touched a
path in at least one walked commit (in particular when the same author
touched the same path in two or more commits) that path appears exactly once
in that author's returned set. -/
theorem files_contributed_to_set_union (repo : Repo)
    (m : List (String × List String)) (hok : repo.filesContributedTo = .ok m)
    (a p : String) :
    (∀ s, lookupStr m a = some s → s.Nodup) ∧
    (Repo.Touched repo a p → ∃ s, lookupStr m a = some s ∧ List.count p s = 1) := by
  obtain ⟨h1, h2, h3⟩ := filesWalk_props repo repo.commits [] m hok (by simp)
  constructor
  · intro s hs
    exact h1 (a, s) (lookupStr_mem _ _ _ hs)
  · intro ht
    obtain ⟨s2, hs2, hp⟩ := h3 a p ht
    have hnd : s2.Nodup := h1 (a, s2) (lookupStr_mem _ _ _ hs2)
    exact ⟨s2, hs2, List.count_eq_one_of_mem hnd hp⟩

/-- A history in which the same author touches the same file in two
different commits. -/
def repoTwice : Repo :=
  { commits :=
      [{ authorName := some "Alice", parentTree := none, tree := .ok 1 },
       { authorName := some "Alice", parentTree := some (some 1), tree := .ok 2 }]
    diffTT := fun _ _ =>
      .ok { statsResult := .ok ⟨1, 0⟩, deltas := [{ newFilePath := some "a.rs" }] } }

/-- Witness for C8: Alice touches a.rs in both commits of a concrete history
and the returned set counts it exactly once. -/
theorem files_contributed_to_set_union_witness :
    ∃ s, lookupStr [("Alice", ["a.rs"])] "Alice" = some s ∧
      List.count "a.rs" s = 1 :=
  (files_contributed_to_set_union repoTwice [("Alice", ["a.rs"])] rfl "Alice" "a.rs").2
    ⟨{ authorName := some "Alice", parentTree := none, tree := .ok 1 },
     List.mem_cons_self _ _, rfl, 1,
     { statsResult := .ok ⟨1, 0⟩, deltas := [{ newFilePath := some "a.rs" }] },
     rfl, rfl, List.mem_singleton.mpr rfl⟩

end GitDetect
